import Mathlib

/-!
Verification of the go-car v2 core (CIDgravity/go-car): the CARv2 wrapper,
the index engine and the read-only block store. Byte streams are modelled as
`List Nat` (each element one byte), `io.ReaderAt` access as `List.drop`, and
fallible operations as `Except Err`. Functions present under `src/` are
translated from the source; collaborators that the source imports from the
same repository but that are not under `src/` (the varint/CID codec in
`internal/io`, the CARv1 framing in `internal/carv1`, the sorted index, the
CARv2 reader) are modelled from the specification and are marked
`Modelled from the spec:` in their doc comments.
-/

namespace GoCar

/-- Error kinds of the library, flattened into one type. `eof` is Go's `io.EOF`,
`unexpectedEof` is `io.ErrUnexpectedEOF`, `overflow` is the varint overflow error,
`notFound` is `blockstore.ErrNotFound` / the index's not-found error, and
`nilPanic` marks a Go runtime panic from calling a method on a nil interface. -/
inductive Err where
  | eof
  | unexpectedEof
  | overflow
  | invalidHeader
  | notCarV2
  | notFound
  | dupKey
  | unknownCodec
  | nilPanic
deriving DecidableEq

/-- Modelled from the spec: unsigned LEB128 encoding (low 7 bits per byte, MSB set
continues), as produced by `binary.PutUvarint`. Fuel-based so that it reduces
definitionally; `putUvarint` supplies sufficient fuel. -/
def putUvarintAux : Nat → Nat → List Nat
  | 0, _ => []
  | fuel + 1, n => if n < 128 then [n] else (n % 128 + 128) :: putUvarintAux fuel (n / 128)

/-- Unsigned LEB128 encoding of `n`. -/
def putUvarint (n : Nat) : List Nat :=
  putUvarintAux (n + 1) n

/-- Modelled from the spec: `binary.ReadUvarint` reading from a byte stream.
Arguments: remaining stream, accumulator, shift, number of bytes read so far.
Returns the decoded value and the total number of bytes consumed. Encodings
longer than 10 bytes, or a 10th byte above 1, are an overflow; an empty stream
is `eof` on the first byte and `unexpectedEof` afterwards, as in Go. -/
def readUvarintAux : List Nat → Nat → Nat → Nat → Except Err (Nat × Nat)
  | [], _, _, i => .error (if i = 0 then .eof else .unexpectedEof)
  | b :: rest, x, s, i =>
    if 10 ≤ i then .error .overflow
    else if b < 128 then
      if i = 9 ∧ 1 < b then .error .overflow
      else .ok (x + b * 2 ^ s, i + 1)
    else readUvarintAux rest (x + b % 128 * 2 ^ s) (s + 7) (i + 1)

/-- Read an unsigned varint from `bs` starting at absolute offset `off`;
returns the value and the offset just past the varint. -/
def readUvarint (bs : List Nat) (off : Nat) : Except Err (Nat × Nat) :=
  match readUvarintAux (bs.drop off) 0 0 0 with
  | .ok (v, k) => .ok (v, off + k)
  | .error e => .error e

lemma putUvarintAux_fuel (f g n : Nat) (hf : n < f) (hg : n < g) :
    putUvarintAux f n = putUvarintAux g n := by
  induction n using Nat.strong_induction_on generalizing f g with
  | _ n ih =>
    match f, g with
    | f' + 1, g' + 1 =>
      simp only [putUvarintAux]
      by_cases hn : n < 128
      · simp [hn]
      · simp only [hn, if_false]
        have hlt : n / 128 < n := Nat.div_lt_self (by omega) (by omega)
        rw [ih (n / 128) hlt f' g' (by omega) (by omega)]

lemma putUvarint_eq (n : Nat) :
    putUvarint n = if n < 128 then [n] else (n % 128 + 128) :: putUvarint (n / 128) := by
  by_cases hn : n < 128
  · simp [putUvarint, putUvarintAux, hn]
  · have hlt : n / 128 < n := Nat.div_lt_self (by omega) (by omega)
    rw [if_neg hn]
    show (if n < 128 then [n] else (n % 128 + 128) :: putUvarintAux n (n / 128)) = _
    rw [if_neg hn]
    exact congrArg _ (putUvarintAux_fuel n (n / 128 + 1) (n / 128) hlt (Nat.lt_succ_self _))

lemma putUvarint_length_pos (n : Nat) : 1 ≤ (putUvarint n).length := by
  rw [putUvarint_eq]
  by_cases hn : n < 128 <;> simp [hn]

lemma putUvarint_length_le (k : Nat) : ∀ n : Nat, n < 128 ^ k → 1 ≤ k →
    (putUvarint n).length ≤ k := by
  induction k with
  | zero => omega
  | succ k ih =>
    intro n hn _
    rw [putUvarint_eq]
    by_cases h : n < 128
    · simp [h]
    · have hk : 1 ≤ k := by
        by_contra hk0
        have : k = 0 := by omega
        subst this
        simp [pow_succ] at hn
        omega
      have hdiv : n / 128 < 128 ^ k := by
        rw [Nat.div_lt_iff_lt_mul (by omega)]
        calc n < 128 ^ (k + 1) := hn
          _ = 128 ^ k * 128 := by rw [pow_succ]
      simp only [h, if_false, List.length_cons]
      have := ih (n / 128) hdiv hk
      omega

lemma readUvarintAux_cons (b : Nat) (rest : List Nat) (x s i : Nat) :
    readUvarintAux (b :: rest) x s i =
      if 10 ≤ i then .error .overflow
      else if b < 128 then
        if i = 9 ∧ 1 < b then .error .overflow
        else .ok (x + b * 2 ^ s, i + 1)
      else readUvarintAux rest (x + b % 128 * 2 ^ s) (s + 7) (i + 1) := rfl

lemma readUvarintAux_put (n : Nat) : ∀ (rest : List Nat) (x s i : Nat),
    i + (putUvarint n).length ≤ 9 →
    readUvarintAux (putUvarint n ++ rest) x s i =
      .ok (x + n * 2 ^ s, i + (putUvarint n).length) := by
  induction n using Nat.strong_induction_on with
  | _ n ih =>
    intro rest x s i h
    rw [putUvarint_eq] at h ⊢
    by_cases hn : n < 128
    · simp only [hn, if_true, List.length_cons, List.length_nil] at h ⊢
      have h1 : ¬ 10 ≤ i := by omega
      have h2 : ¬ (i = 9 ∧ 1 < n) := by omega
      rw [List.cons_append, List.nil_append, readUvarintAux_cons,
        if_neg h1, if_pos hn, if_neg h2]
    · simp only [hn, if_false, List.length_cons] at h ⊢
      have hb : ¬ (n % 128 + 128 < 128) := by omega
      have h1 : ¬ 10 ≤ i := by
        have := putUvarint_length_pos (n / 128)
        omega
      rw [List.cons_append, readUvarintAux_cons, if_neg h1, if_neg hb]
      have hlt : n / 128 < n := Nat.div_lt_self (by omega) (by omega)
      have hmod : (n % 128 + 128) % 128 = n % 128 := by omega
      rw [hmod, ih (n / 128) hlt rest (x + n % 128 * 2 ^ s) (s + 7) (i + 1) (by omega)]
      have hval : x + n % 128 * 2 ^ s + n / 128 * 2 ^ (s + 7) = x + n * 2 ^ s := by
        have : 2 ^ (s + 7) = 2 ^ s * 128 := by rw [pow_add]; norm_num
        rw [this]
        conv_rhs => rw [← Nat.div_add_mod n 128]
        ring
      rw [hval]
      simp only [Except.ok.injEq, Prod.mk.injEq, true_and]
      omega

lemma readUvarint_put {bs : List Nat} {off n : Nat} {rest : List Nat}
    (hd : bs.drop off = putUvarint n ++ rest) (hn : n < 2 ^ 63) :
    readUvarint bs off = .ok (n, off + (putUvarint n).length) := by
  have hlen : (putUvarint n).length ≤ 9 := by
    apply putUvarint_length_le 9 n _ (by omega)
    have : (128 : Nat) ^ 9 = 2 ^ 63 := by norm_num
    omega
  rw [readUvarint, hd, readUvarintAux_put n rest 0 0 0 (by omega)]
  simp

lemma readUvarint_eof {bs : List Nat} {off : Nat} (h : bs.drop off = []) :
    readUvarint bs off = .error .eof := by
  simp [readUvarint, h, readUvarintAux]

/-- Dropping past a known decomposition of a suffix. -/
lemma drop_offset_append {bs l r : List Nat} {off : Nat}
    (h : bs.drop off = l ++ r) : bs.drop (off + l.length) = r := by
  rw [← List.drop_drop, h, List.drop_left]

/-- A CID, kept in parsed form: version, codec and multihash-code varint values and the
multihash digest bytes. The serialized form is `Cid.bytes`; the digest is the index key. -/
structure Cid where
  version : Nat
  codec : Nat
  hashCode : Nat
  digest : List Nat
deriving DecidableEq

/-- The serialized CID: version varint, codec varint, multihash-code varint,
digest-length varint, digest bytes. -/
def Cid.bytes (c : Cid) : List Nat :=
  putUvarint c.version ++ putUvarint c.codec ++ putUvarint c.hashCode ++
    putUvarint c.digest.length ++ c.digest

/-- Varint bounds under which the serialized CID parses back. -/
def Cid.Wf (c : Cid) : Prop :=
  c.version < 2 ^ 63 ∧ c.codec < 2 ^ 63 ∧ c.hashCode < 2 ^ 63 ∧ c.digest.length < 2 ^ 63

instance (c : Cid) : Decidable c.Wf := by unfold Cid.Wf; infer_instance

/-- Modelled from the spec: parse a CID from the start of a buffer by reading its fixed
prefix of four varints and then digest-length bytes, returning the CID and the number of
bytes consumed (`cid.CidFromBytes` on an in-memory frame). -/
def parseCid (buf : List Nat) : Except Err (Cid × Nat) :=
  match readUvarint buf 0 with
  | .error e => .error e
  | .ok (ver, p1) =>
    match readUvarint buf p1 with
    | .error e => .error e
    | .ok (cod, p2) =>
      match readUvarint buf p2 with
      | .error e => .error e
      | .ok (hc, p3) =>
        match readUvarint buf p3 with
        | .error e => .error e
        | .ok (dl, p4) =>
          let dg := (buf.drop p4).take dl
          if dg.length = dl then .ok (⟨ver, cod, hc, dg⟩, p4 + dl)
          else .error .unexpectedEof

/-- Modelled from the spec: `internal/io.ReadCid` parses a CID from the backing at an
absolute offset; unlike `parseCid` on a frame buffer it is not bounded by any frame
length. Returns the CID and the offset just past it. -/
def readCid (bs : List Nat) (off : Nat) : Except Err (Cid × Nat) :=
  match parseCid (bs.drop off) with
  | .ok (c, n) => .ok (c, off + n)
  | .error e => .error e

lemma parseCid_bytes (c : Cid) (rest : List Nat) (h : c.Wf) :
    parseCid (c.bytes ++ rest) = .ok (c, c.bytes.length) := by
  obtain ⟨h1, h2, h3, h4⟩ := h
  have e0 : (c.bytes ++ rest).drop 0 = putUvarint c.version ++
      (putUvarint c.codec ++ (putUvarint c.hashCode ++
        (putUvarint c.digest.length ++ (c.digest ++ rest)))) := by
    simp [Cid.bytes, List.append_assoc]
  have r1 := readUvarint_put e0 h1
  have e1 := drop_offset_append e0
  have r2 := readUvarint_put e1 h2
  have e2 := drop_offset_append e1
  have r3 := readUvarint_put e2 h3
  have e3 := drop_offset_append e2
  have r4 := readUvarint_put e3 h4
  have e4 := drop_offset_append e3
  have hdg : (c.digest ++ rest).take c.digest.length = c.digest := List.take_left _ _
  simp only [parseCid, r1, r2, r3, r4, e4, hdg, eq_self_iff_true, if_true]
  simp only [Except.ok.injEq, Prod.mk.injEq]
  refine ⟨trivial, ?_⟩
  simp only [Cid.bytes, List.length_append]
  omega

/-- A CARv1 block frame: `varint(total_len) || cid_bytes || block_bytes`. -/
structure Frame where
  cid : Cid
  data : List Nat
deriving DecidableEq

/-- The length-prefixed body of a frame: CID bytes followed by the block bytes. -/
def Frame.body (f : Frame) : List Nat := f.cid.bytes ++ f.data

def encodeFrame (f : Frame) : List Nat := putUvarint f.body.length ++ f.body

def encodeFrames (fs : List Frame) : List Nat := (fs.map encodeFrame).flatten

/-- Bounds under which an encoded frame reads back. -/
def Frame.Wf (f : Frame) : Prop := f.cid.Wf ∧ f.body.length < 2 ^ 63

instance (f : Frame) : Decidable f.Wf := by unfold Frame.Wf; infer_instance

/-- The CARv1 header structure: version and roots. -/
structure CarHeader where
  version : Nat
  roots : List Cid
deriving DecidableEq

/-- Modelled from the spec: the CARv1 header body encodes `{version, roots}`. The body
encoding in the implementation is dag-cbor, which lives outside `src/`; a simple
varint-structured stand-in whose first field is the version is used, which is all the
code under `src/` observes (via ReadHeader's version check and HeaderSize). -/
def encodeHeaderBody (h : CarHeader) : List Nat :=
  putUvarint h.version ++ putUvarint h.roots.length ++
    (h.roots.map (fun c => putUvarint c.bytes.length ++ c.bytes)).flatten

/-- The serialized CARv1 header: a varint-length-prefixed body. -/
def encodeHeader (h : CarHeader) : List Nat :=
  putUvarint (encodeHeaderBody h).length ++ encodeHeaderBody h

def CarHeader.Wf (h : CarHeader) : Prop :=
  h.version < 2 ^ 63 ∧ (encodeHeaderBody h).length < 2 ^ 63

instance (h : CarHeader) : Decidable h.Wf := by unfold CarHeader.Wf; infer_instance

/-- Modelled from the spec: `carv1.ReadHeader` followed by `carv1.HeaderSize`, the
composition both `index.Generate` and `AllKeysChan` perform: read the varint-length-
prefixed header block, fail unless it is complete and its version field is 1, and
return its on-disk length (the offset of the first frame). -/
def carv1HeaderSize (bs : List Nat) : Except Err Nat :=
  match readUvarint bs 0 with
  | .error e => .error e
  | .ok (l, p) =>
    if ((bs.drop p).take l).length = l then
      match readUvarint bs p with
      | .error e => .error e
      | .ok (v, _) => if v = 1 then .ok (p + l) else .error .invalidHeader
    else .error .unexpectedEof

/-- Modelled from the spec: `util.ReadNode` / `read_frame`. Reads the frame's leading
varint `L`, takes the `L` body bytes (failing if truncated), parses the CID from the
body buffer, and returns the CID and the remaining body bytes. -/
def readNode (bs : List Nat) (off : Nat) : Except Err (Cid × List Nat) :=
  match readUvarint bs off with
  | .error e => .error e
  | .ok (l, p) =>
    let buf := (bs.drop p).take l
    if buf.length = l then
      match parseCid buf with
      | .error e => .error e
      | .ok (c, n) => .ok (c, buf.drop n)
    else .error .unexpectedEof

lemma carv1HeaderSize_encode (h : CarHeader) (rest : List Nat)
    (hv : h.version = 1) (hwf : h.Wf) :
    carv1HeaderSize (encodeHeader h ++ rest) = .ok (encodeHeader h).length := by
  obtain ⟨h1, h2⟩ := hwf
  have e0 : (encodeHeader h ++ rest).drop 0 =
      putUvarint (encodeHeaderBody h).length ++ (encodeHeaderBody h ++ rest) := by
    simp [encodeHeader, List.append_assoc]
  have r1 := readUvarint_put e0 h2
  have e1 := drop_offset_append e0
  have hbody : encodeHeaderBody h = putUvarint h.version ++
      (putUvarint h.roots.length ++
        (h.roots.map (fun c => putUvarint c.bytes.length ++ c.bytes)).flatten) := by
    simp [encodeHeaderBody, List.append_assoc]
  have e1' : (encodeHeader h ++ rest).drop (0 + (putUvarint (encodeHeaderBody h).length).length) =
      putUvarint h.version ++ ((putUvarint h.roots.length ++
        (h.roots.map (fun c => putUvarint c.bytes.length ++ c.bytes)).flatten) ++ rest) := by
    rw [e1, hbody]
    simp [List.append_assoc]
  have r2 := readUvarint_put e1' h1
  have htake : ((encodeHeader h ++ rest).drop
      (0 + (putUvarint (encodeHeaderBody h).length).length)).take (encodeHeaderBody h).length =
      encodeHeaderBody h := by
    rw [e1, List.take_left]
  simp only [carv1HeaderSize, r1, htake, eq_self_iff_true, if_true, r2, hv]
  simp only [Except.ok.injEq, encodeHeader, List.length_append]
  omega

lemma readNode_encodeFrame {bs : List Nat} {off : Nat} (f : Frame) (rest : List Nat)
    (hdrop : bs.drop off = encodeFrame f ++ rest) (hwf : f.Wf) :
    readNode bs off = .ok (f.cid, f.data) := by
  obtain ⟨hcid, hlen⟩ := hwf
  have e0 : bs.drop off = putUvarint f.body.length ++ (f.body ++ rest) := by
    rw [hdrop]
    simp [encodeFrame, List.append_assoc]
  have r1 := readUvarint_put e0 hlen
  have e1 := drop_offset_append e0
  have htake : (bs.drop (off + (putUvarint f.body.length).length)).take f.body.length =
      f.body := by rw [e1, List.take_left]
  have hparse : parseCid f.body = .ok (f.cid, f.cid.bytes.length) :=
    parseCid_bytes f.cid f.data hcid
  simp only [readNode, r1, htake, eq_self_iff_true, if_true, hparse]
  simp only [Except.ok.injEq, Prod.mk.injEq, true_and]
  exact List.drop_left f.cid.bytes f.data

/-- One record of the sorted index: a multihash digest and the byte offset, within
the CARv1 payload, of the frame's leading varint. -/
structure IdxRecord where
  digest : List Nat
  offset : Nat
deriving DecidableEq

/-- Lexicographic comparison of digests, byte by byte. -/
def digestLe : List Nat → List Nat → Bool
  | [], _ => true
  | _ :: _, [] => false
  | a :: as, b :: bs => if a < b then true else if b < a then false else digestLe as bs

/-- Insert a record into a digest-sorted list. -/
def insertRec (r : IdxRecord) : List IdxRecord → List IdxRecord
  | [] => [r]
  | x :: xs => if digestLe r.digest x.digest then r :: x :: xs else x :: insertRec r xs

/-- Insertion sort of records by digest. -/
def sortRecs : List IdxRecord → List IdxRecord
  | [] => []
  | x :: xs => insertRec x (sortRecs xs)

lemma mem_insertRec {a r : IdxRecord} {l : List IdxRecord} :
    a ∈ insertRec r l ↔ a = r ∨ a ∈ l := by
  induction l with
  | nil => simp [insertRec]
  | cons x xs ih =>
    simp only [insertRec]
    by_cases h : digestLe r.digest x.digest
    · simp [h]
    · have h' : digestLe r.digest x.digest = false := by simpa using h
      simp only [h', Bool.false_eq_true, if_false, List.mem_cons, ih]
      tauto

lemma mem_sortRecs {a : IdxRecord} {l : List IdxRecord} :
    a ∈ sortRecs l ↔ a ∈ l := by
  induction l with
  | nil => simp [sortRecs]
  | cons x xs ih => simp [sortRecs, mem_insertRec, ih]

/-- The distinct digest widths occurring among the records. -/
def widthsOf (rs : List IdxRecord) : List Nat :=
  (rs.map (fun r => r.digest.length)).dedup

/-- The canonical sorted index: records grouped into buckets by digest width, each
bucket sorted by digest. -/
structure SortedIndex where
  buckets : List (Nat × List IdxRecord)
deriving DecidableEq

/-- Modelled from the spec: building the sorted-by-digest, bucketed-by-width index
from a record list. -/
def mkSortedOf (rs : List IdxRecord) : SortedIndex :=
  ⟨(widthsOf rs).map (fun w => (w, sortRecs (rs.filter (fun r => r.digest.length == w))))⟩

/-- Modelled from the spec: bulk-load of the index; a duplicate digest is a
`DuplicateKey` error, and load may be called exactly once. -/
def indexLoad (rs : List IdxRecord) : Except Err SortedIndex :=
  if (rs.map IdxRecord.digest).Nodup then .ok (mkSortedOf rs) else .error .dupKey

/-- Modelled from the spec: index lookup — find the bucket whose width is the query
digest's length, then search it for the digest; `NotFound` otherwise. The
implementation binary-searches the sorted bucket; the model searches it linearly,
which agrees observationally on sorted buckets. -/
def SortedIndex.get (si : SortedIndex) (c : Cid) : Except Err Nat :=
  match si.buckets.find? (fun b => b.1 == c.digest.length) with
  | none => .error .notFound
  | some (_, rs) =>
    match rs.find? (fun r => r.digest == c.digest) with
    | none => .error .notFound
    | some r => .ok r.offset

lemma find?_width_bucket (ws : List Nat) (g : Nat → List IdxRecord) {w : Nat}
    (hw : w ∈ ws) :
    (ws.map (fun v => (v, g v))).find? (fun b => b.1 == w) = some (w, g w) := by
  induction ws with
  | nil => cases hw
  | cons a as ih =>
    by_cases ha : a = w
    · subst ha
      rw [List.map_cons, List.find?_cons_of_pos _ (by simp)]
    · have hw' : w ∈ as := by
        rcases List.mem_cons.mp hw with h | h
        · exact absurd h.symm ha
        · exact h
      rw [List.map_cons, List.find?_cons_of_neg _ (by simp [ha])]
      exact ih hw'

lemma mem_mkSortedOf_bucket {rs : List IdxRecord} {w : Nat} {bl : List IdxRecord}
    (h : (w, bl) ∈ (mkSortedOf rs).buckets) :
    ∀ r ∈ bl, r ∈ rs ∧ r.digest.length = w := by
  intro r hr
  simp only [mkSortedOf, List.mem_map] at h
  obtain ⟨v, hv1, hv2⟩ := h
  have hvw : v = w := congrArg Prod.fst hv2
  subst hvw
  have hbl : sortRecs (rs.filter (fun r => r.digest.length == v)) = bl :=
    congrArg Prod.snd hv2
  rw [← hbl] at hr
  have hr' := List.mem_filter.mp (mem_sortRecs.mp hr)
  exact ⟨hr'.1, by simpa using hr'.2⟩

lemma get_mkSortedOf_mem {rs : List IdxRecord} {c : Cid} {o : Nat}
    (hnd : (rs.map IdxRecord.digest).Nodup)
    (hmem : (⟨c.digest, o⟩ : IdxRecord) ∈ rs) :
    (mkSortedOf rs).get c = .ok o := by
  have hw : c.digest.length ∈ widthsOf rs := by
    simp only [widthsOf, List.mem_dedup, List.mem_map]
    exact ⟨⟨c.digest, o⟩, hmem, rfl⟩
  have hfind := find?_width_bucket (widthsOf rs)
    (fun w => sortRecs (rs.filter (fun r => r.digest.length == w))) hw
  have hfind' : (mkSortedOf rs).buckets.find? (fun b => b.1 == c.digest.length) =
      some (c.digest.length,
        sortRecs (rs.filter (fun r => r.digest.length == c.digest.length))) := hfind
  have hmem' : (⟨c.digest, o⟩ : IdxRecord) ∈
      sortRecs (rs.filter (fun r => r.digest.length == c.digest.length)) := by
    rw [mem_sortRecs]
    exact List.mem_filter.mpr ⟨hmem, by simp⟩
  have hsome : (sortRecs (rs.filter (fun r => r.digest.length == c.digest.length))).find?
      (fun r => r.digest == c.digest) |>.isSome := by
    rw [List.find?_isSome]
    exact ⟨⟨c.digest, o⟩, hmem', by simp⟩
  obtain ⟨r, hr⟩ := Option.isSome_iff_exists.mp hsome
  have hpr := List.find?_some hr
  have hrmem : r ∈ rs := by
    have := mem_sortRecs.mp (List.mem_of_find?_eq_some hr)
    exact (List.mem_filter.mp this).1
  have hdig : r.digest = c.digest := by simpa using hpr
  have hinj := List.inj_on_of_nodup_map hnd
  have hro : r = ⟨c.digest, o⟩ := hinj hrmem hmem (by simpa using hdig)
  simp only [SortedIndex.get, hfind', hr, hro]

lemma get_mkSortedOf_none {rs : List IdxRecord} {c : Cid}
    (habs : c.digest ∉ rs.map IdxRecord.digest) :
    (mkSortedOf rs).get c = .error .notFound := by
  cases hfind : (mkSortedOf rs).buckets.find? (fun b => b.1 == c.digest.length) with
  | none => simp only [SortedIndex.get, hfind]
  | some b =>
    obtain ⟨w, bl⟩ := b
    have hb := List.mem_of_find?_eq_some hfind
    have hmem := mem_mkSortedOf_bucket hb
    have hnone : bl.find? (fun r => r.digest == c.digest) = none := by
      rw [List.find?_eq_none]
      intro r hr
      have ⟨hr1, _⟩ := hmem r hr
      simp only [beq_iff_eq]
      intro hEq
      exact habs (List.mem_map.mpr ⟨r, hr1, hEq⟩)
    simp only [SortedIndex.get, hfind, hnone]

/-- `index.Generate`'s frame walk, from `src/v2/index/generator.go` lines 28-46: record
`(cid, thisItemIdx)` where `thisItemIdx` is the offset of the frame's leading varint,
read the varint and the CID, seek past the frame, and repeat; a clean EOF at a frame
boundary ends the walk, any other read error aborts. Fuel bounds the iteration count;
callers supply fuel that cannot run out, as every iteration consumes at least one
byte of the payload. -/
def generateLoop (car : List Nat) : Nat → Nat → Except Err (List (Cid × Nat))
  | _, 0 => .error .unexpectedEof
  | off, fuel + 1 =>
    match readUvarint car off with
    | .error .eof => .ok []
    | .error e => .error e
    | .ok (l, p) =>
      match readCid car p with
      | .error e => .error e
      | .ok (c, _) =>
        match generateLoop car (p + l) fuel with
        | .error e => .error e
        | .ok recs => .ok ((c, off) :: recs)

/-- `index.Generate` from `src/v2/index/generator.go`: read the CARv1 header, compute
the first-frame offset, walk the frames, and bulk-load the records (keyed by each
CID's multihash digest) into a sorted index. -/
def generate (car : List Nat) : Except Err SortedIndex :=
  match carv1HeaderSize car with
  | .error e => .error e
  | .ok offset =>
    match generateLoop car offset (car.length + 1) with
    | .error e => .error e
    | .ok recs => indexLoad (recs.map (fun r => ⟨r.1.digest, r.2⟩))

/-- The records the generator walk produces over an encoded frame list starting at
`off`: each frame's CID paired with the offset of its leading varint. -/
def recordsOf : List Frame → Nat → List (Cid × Nat)
  | [], _ => []
  | f :: fs, off => (f.cid, off) :: recordsOf fs (off + (encodeFrame f).length)

lemma encodeFrames_cons (f : Frame) (fs : List Frame) :
    encodeFrames (f :: fs) = encodeFrame f ++ encodeFrames fs := by
  simp [encodeFrames]

lemma encodeFrames_append (a b : List Frame) :
    encodeFrames (a ++ b) = encodeFrames a ++ encodeFrames b := by
  simp [encodeFrames]

lemma encodeFrame_length (f : Frame) :
    (encodeFrame f).length = (putUvarint f.body.length).length + f.body.length := by
  simp [encodeFrame]

lemma length_le_encodeFrames (fs : List Frame) :
    fs.length ≤ (encodeFrames fs).length := by
  induction fs with
  | nil => simp [encodeFrames]
  | cons f fs ih =>
    rw [encodeFrames_cons]
    have := putUvarint_length_pos f.body.length
    simp only [List.length_cons, List.length_append, encodeFrame_length]
    omega

lemma generateLoop_frames (fs : List Frame) : ∀ (car : List Nat) (off fuel : Nat),
    car.drop off = encodeFrames fs → (∀ f ∈ fs, f.Wf) → fs.length < fuel →
    generateLoop car off fuel = .ok (recordsOf fs off) := by
  induction fs with
  | nil =>
    intro car off fuel hdrop hwf hfuel
    match fuel with
    | fuel' + 1 =>
      have he : car.drop off = [] := by simpa [encodeFrames] using hdrop
      simp [generateLoop, readUvarint_eof he, recordsOf]
  | cons f fs ih =>
    intro car off fuel hdrop hwf hfuel
    match fuel with
    | fuel' + 1 =>
      have hfwf : f.Wf := hwf f (List.mem_cons_self f fs)
      have e0 : car.drop off = putUvarint f.body.length ++ (f.body ++ encodeFrames fs) := by
        rw [hdrop, encodeFrames_cons]
        simp [encodeFrame, List.append_assoc]
      have r1 := readUvarint_put e0 hfwf.2
      have e1 := drop_offset_append e0
      have e1' : car.drop (off + (putUvarint f.body.length).length) =
          f.cid.bytes ++ (f.data ++ encodeFrames fs) := by
        rw [e1]
        simp [Frame.body, List.append_assoc]
      have rcid : readCid car (off + (putUvarint f.body.length).length) =
          .ok (f.cid, off + (putUvarint f.body.length).length + f.cid.bytes.length) := by
        rw [readCid, e1', parseCid_bytes f.cid _ hfwf.1]
      have e2 : car.drop (off + (putUvarint f.body.length).length + f.body.length) =
          encodeFrames fs := drop_offset_append e1
      have hrec := ih car (off + (putUvarint f.body.length).length + f.body.length) fuel'
        e2 (fun g hg => hwf g (List.mem_cons_of_mem f hg)) (by simpa using hfuel)
      simp only [generateLoop, r1, rcid, hrec]
      simp only [recordsOf, Except.ok.injEq, List.cons.injEq, Prod.mk.injEq, true_and]
      have harg : off + (putUvarint f.body.length).length + f.body.length =
          off + (encodeFrame f).length := by
        rw [encodeFrame_length]
        omega
      rw [harg]

lemma recordsOf_map_digest (fs : List Frame) (off : Nat) :
    ((recordsOf fs off).map (fun r => (⟨r.1.digest, r.2⟩ : IdxRecord))).map
      IdxRecord.digest = fs.map (fun f => f.cid.digest) := by
  induction fs generalizing off with
  | nil => simp [recordsOf]
  | cons f fs ih => simp [recordsOf, ih]

lemma recordsOf_mem {fs : List Frame} : ∀ {off : Nat} {c : Cid} {o : Nat},
    (c, o) ∈ recordsOf fs off →
    ∃ pre f suf, fs = pre ++ f :: suf ∧ f.cid = c ∧
      o = off + (encodeFrames pre).length := by
  induction fs with
  | nil => intro off c o h; simp [recordsOf] at h
  | cons g gs ih =>
    intro off c o h
    rw [recordsOf, List.mem_cons] at h
    rcases h with h | h
    · have h1 : c = g.cid := congrArg Prod.fst h
      have h2 : o = off := congrArg Prod.snd h
      refine ⟨[], g, gs, rfl, h1.symm, ?_⟩
      simp [encodeFrames, h2]
    · obtain ⟨pre, f, suf, hfs, hc, ho⟩ := ih h
      refine ⟨g :: pre, f, suf, by simp [hfs], hc, ?_⟩
      rw [ho, encodeFrames_cons]
      simp only [List.length_append]
      omega

lemma frame_mem_recordsOf {fs : List Frame} (f : Frame) (hf : f ∈ fs) :
    ∀ off : Nat, ∃ o, (f.cid, o) ∈ recordsOf fs off := by
  induction fs with
  | nil => cases hf
  | cons g gs ih =>
    intro off
    rcases List.mem_cons.mp hf with h | h
    · subst h
      exact ⟨off, List.mem_cons_self _ _⟩
    · obtain ⟨o, ho⟩ := ih h (off + (encodeFrame g).length)
      exact ⟨o, List.mem_cons_of_mem _ ho⟩

/-- A CARv1 payload in structured form: header followed by frames. -/
structure CarV1 where
  header : CarHeader
  frames : List Frame
deriving DecidableEq

def CarV1.bytes (p : CarV1) : List Nat := encodeHeader p.header ++ encodeFrames p.frames

/-- Well-formedness of a CARv1 payload: version 1, in-bounds varint values, and
pairwise-distinct multihash digests (the writer emits each CID at most once and the
digest-keyed index rejects duplicates during load). -/
def CarV1.Wf (p : CarV1) : Prop :=
  p.header.version = 1 ∧ p.header.Wf ∧ (∀ f ∈ p.frames, f.Wf) ∧
    (p.frames.map (fun f => f.cid.digest)).Nodup

instance (p : CarV1) : Decidable p.Wf := by unfold CarV1.Wf; infer_instance

/-- The generator's records over a payload: each frame's CID with its absolute offset. -/
def CarV1.records (p : CarV1) : List (Cid × Nat) :=
  recordsOf p.frames (encodeHeader p.header).length

def CarV1.idxRecords (p : CarV1) : List IdxRecord :=
  p.records.map (fun r => ⟨r.1.digest, r.2⟩)

lemma idxRecords_digest_nodup {p : CarV1} (hnd : (p.frames.map (fun f => f.cid.digest)).Nodup) :
    (p.idxRecords.map IdxRecord.digest).Nodup := by
  rw [CarV1.idxRecords, CarV1.records, recordsOf_map_digest]
  exact hnd

lemma generate_bytes (p : CarV1) (hwf : p.Wf) :
    generate p.bytes = .ok (mkSortedOf p.idxRecords) := by
  obtain ⟨hv, hh, hf, hnd⟩ := hwf
  have hhdr : carv1HeaderSize p.bytes = .ok (encodeHeader p.header).length :=
    carv1HeaderSize_encode p.header _ hv hh
  have hdrop : p.bytes.drop (encodeHeader p.header).length = encodeFrames p.frames :=
    List.drop_left _ _
  have hfuel : p.frames.length < p.bytes.length + 1 := by
    have h1 := length_le_encodeFrames p.frames
    have h2 : p.bytes.length =
        (encodeHeader p.header).length + (encodeFrames p.frames).length := by
      simp [CarV1.bytes]
    omega
  have hloop := generateLoop_frames p.frames p.bytes (encodeHeader p.header).length
    (p.bytes.length + 1) hdrop hf hfuel
  have hnodup : (((recordsOf p.frames (encodeHeader p.header).length).map
      (fun r => (⟨r.1.digest, r.2⟩ : IdxRecord))).map IdxRecord.digest).Nodup :=
    idxRecords_digest_nodup hnd
  simp only [generate, hhdr, hloop, indexLoad, if_pos hnodup]
  rfl

/-- C5: for every well-formed CARv1 payload, `index.Generate` reads the header, walks
the frames recording each (cid, offset-of-the-frame's-leading-varint) and bulk-loads
them, so that for every CID present in the payload the generated index returns an
offset at which reading a frame yields that CID. -/
theorem generate_index_complete (p : CarV1) (c : Cid) (hwf : p.Wf)
    (hc : c ∈ p.frames.map Frame.cid) :
    ∃ si o d, generate p.bytes = .ok si ∧ si.get c = .ok o ∧
      readNode p.bytes o = .ok (c, d) := by
  obtain ⟨f, hf, hfc⟩ := List.mem_map.mp hc
  obtain ⟨o, ho⟩ := frame_mem_recordsOf f hf (encodeHeader p.header).length
  have hgen := generate_bytes p hwf
  obtain ⟨hv, hh, hwfs, hnd⟩ := hwf
  have hnodup := idxRecords_digest_nodup hnd
  have hmemIdx : (⟨c.digest, o⟩ : IdxRecord) ∈ p.idxRecords := by
    rw [CarV1.idxRecords, CarV1.records]
    exact List.mem_map.mpr ⟨(f.cid, o), ho, by rw [hfc]⟩
  have hget := get_mkSortedOf_mem hnodup hmemIdx
  obtain ⟨pre, g, suf, hfs, hgc, hoeq⟩ := recordsOf_mem ho
  have hdropo : p.bytes.drop o = encodeFrame g ++ encodeFrames suf := by
    rw [hoeq]
    have hsplit : p.bytes = (encodeHeader p.header ++ encodeFrames pre) ++
        (encodeFrame g ++ encodeFrames suf) := by
      rw [CarV1.bytes, hfs, encodeFrames_append, encodeFrames_cons]
      simp [List.append_assoc]
    rw [hsplit]
    have hlen : (encodeHeader p.header).length + (encodeFrames pre).length =
        (encodeHeader p.header ++ encodeFrames pre).length := by simp
    rw [hlen, List.drop_left]
  have hgmem : g ∈ p.frames := by
    rw [hfs]
    exact List.mem_append_right _ (List.mem_cons_self _ _)
  have hread := readNode_encodeFrame g (encodeFrames suf) hdropo (hwfs g hgmem)
  refine ⟨mkSortedOf p.idxRecords, o, g.data, hgen, hget, ?_⟩
  rw [hread, hgc, hfc]

/-- Concrete CIDs, frames and payloads used by witnesses and counterexamples. -/
def cidA : Cid := ⟨1, 85, 18, [1, 2]⟩

def cidB : Cid := ⟨1, 85, 18, [3, 4, 5]⟩

def frameA : Frame := ⟨cidA, [9, 9]⟩

def frameB : Frame := ⟨cidB, [7]⟩

def hdr1 : CarHeader := ⟨1, []⟩

def carP : CarV1 := ⟨hdr1, [frameA, frameB]⟩

/-- Witness for C5 at a concrete two-block payload. -/
theorem generate_index_complete_witness :
    ∃ si o d, generate carP.bytes = .ok si ∧ si.get cidA = .ok o ∧
      readNode carP.bytes o = .ok (cidA, d) :=
  generate_index_complete carP cidA (by decide) (by decide)

/-- The read-only block store, `src/v2/blockstore/readonly.go` lines 28-33: a backing
byte source holding a CARv1 payload, and the index. The index field is an `Option`
because Go's `index.Index` interface value may be nil (`OpenReadOnly` declares
`var idx index.Index`); calling a method on a nil interface panics at run time,
modelled by the `nilPanic` error. Go's `(value, error)` pairs are modelled as
`Except`; the zero value Go returns alongside a non-nil error is not modelled. -/
structure ReadOnly where
  backing : List Nat
  idx : Option SortedIndex
deriving DecidableEq

/-- `ReadOnlyOf`, readonly.go lines 37-39. -/
def readOnlyOf (backing : List Nat) (idx : SortedIndex) : ReadOnly :=
  ⟨backing, some idx⟩

/-- The store's index lookup `b.idx.Get(key)`; a nil index is a panic. -/
def ReadOnly.idxGet (b : ReadOnly) (key : Cid) : Except Err Nat :=
  match b.idx with
  | none => .error .nilPanic
  | some si => si.get key

/-- `readBlock`, readonly.go lines 77-80: `util.ReadNode` at the given offset. -/
def ReadOnly.readBlock (b : ReadOnly) (off : Nat) : Except Err (Cid × List Nat) :=
  readNode b.backing off

/-- `Has`, readonly.go lines 88-103: index lookup (propagating its error), read the
frame varint, read the CID just after it, and return whether it equals the key. -/
def ReadOnly.has (b : ReadOnly) (key : Cid) : Except Err Bool :=
  match b.idxGet key with
  | .error e => .error e
  | .ok offset =>
    match readUvarint b.backing offset with
    | .error e => .error e
    | .ok (_, p) =>
      match readCid b.backing p with
      | .error e => .error e
      | .ok (c, _) => .ok (c == key)

/-- `Get`, readonly.go lines 106-120: index lookup (propagating its error), read the
frame; any read error and any frame/key CID mismatch become `ErrNotFound`; on success
the block carries the queried key and the frame's data bytes. -/
def ReadOnly.get (b : ReadOnly) (key : Cid) : Except Err (Cid × List Nat) :=
  match b.idxGet key with
  | .error e => .error e
  | .ok offset =>
    match b.readBlock offset with
    | .error _ => .error .notFound
    | .ok (entry, bytes) =>
      if entry = key then .ok (key, bytes) else .error .notFound

/-- `GetSize`, readonly.go lines 123-141: index lookup (propagating its error), read
the frame varint `l` (failure becomes `ErrNotFound`), then read a CID at offset
`idx + l` (sic — the varint's value, not its byte length, is added to the frame
start; a read error there is propagated), compare it with the key and return `l`. -/
def ReadOnly.getSize (b : ReadOnly) (key : Cid) : Except Err Nat :=
  match b.idxGet key with
  | .error e => .error e
  | .ok idx =>
    match readUvarint b.backing idx with
    | .error _ => .error .notFound
    | .ok (l, _) =>
      match readCid b.backing (idx + l) with
      | .error e => .error e
      | .ok (c, _) =>
        if c = key then .ok l else .error .notFound

deriving instance DecidableEq for Except

/-- A CID absent from `carP`. -/
def cidC : Cid := ⟨1, 85, 18, [6, 6]⟩

/-- The correct store over `carP`: its payload with its generated index. -/
def stP : ReadOnly := readOnlyOf carP.bytes (mkSortedOf carP.idxRecords)

/-- C2: querying a CID absent from the index. The index lookup fails with its
not-found error and `Has` propagates that error (`return false, err`), so the caller
observes `(false, ErrNotFound)`, not the claimed `(false, nil)`. -/
theorem has_absent_propagates_index_error :
    stP.has cidC = .error .notFound ∧ stP.has cidC ≠ .ok false := by decide

/-- C3: `GetSize` reads the CID at offset `idx + l` — frame start plus the varint's
value — instead of immediately after the varint. On the present, well-formed block
`frameA` (indexed at offset 3, body length 8) it therefore parses garbage and errors,
while the frame itself reads back fine and the claimed return value is 8. -/
theorem getSize_reads_cid_at_wrong_offset :
    stP.getSize cidA = .error .unexpectedEof ∧
    readNode carP.bytes 3 = .ok (cidA, [9, 9]) ∧
    frameA.body.length = 8 := by decide

/-- C4: when the index returns an offset for the key, `Get` surfaces exactly
`NotFound` on any frame-read error and on a frame/key CID mismatch, and on success
returns a block whose payload is the frame's data bytes. -/
theorem get_collapses_to_notFound (b : ReadOnly) (key : Cid) (off : Nat)
    (hidx : b.idxGet key = .ok off) :
    (∀ e, readNode b.backing off = .error e → b.get key = .error .notFound) ∧
    (∀ c d, readNode b.backing off = .ok (c, d) → c ≠ key →
      b.get key = .error .notFound) ∧
    (∀ f : Frame, f.Wf → f.cid = key →
      (∃ rest, b.backing.drop off = encodeFrame f ++ rest) →
      b.get key = .ok (key, f.data)) := by
  refine ⟨?_, ?_, ?_⟩
  · intro e he
    simp only [ReadOnly.get, hidx, ReadOnly.readBlock, he]
  · intro c d hok hne
    simp only [ReadOnly.get, hidx, ReadOnly.readBlock, hok, if_neg hne]
  · rintro f hwf hfc ⟨rest, hdrop⟩
    have hread := readNode_encodeFrame f rest hdrop hwf
    simp only [ReadOnly.get, hidx, ReadOnly.readBlock, hread, hfc,
      eq_self_iff_true, if_true]

/-- Witness for C4: `Get` on `cidB` in the concrete store returns its data. -/
theorem get_collapses_to_notFound_witness :
    stP.get cidB = .ok (cidB, [7]) :=
  (get_collapses_to_notFound stP cidB 12 (by decide)).2.2 frameB (by decide) (by decide)
    ⟨[], by decide⟩

/-- A backing whose single frame declares 8 body bytes but is truncated right after
the CID bytes, together with an index pointing at it. -/
def truncBacking : List Nat := putUvarint 8 ++ cidA.bytes

def truncStore : ReadOnly := readOnlyOf truncBacking (mkSortedOf [⟨cidA.digest, 0⟩])

/-- C10 counterexample: on a truncated frame `Has` succeeds with `true` (it only reads
the varint and the CID, unbounded by the frame length) while `Get` must read the whole
frame body, fails, and reports `NotFound`. -/
theorem has_get_disagree_on_truncated_frame :
    truncStore.has cidA = .ok true ∧ truncStore.get cidA = .error .notFound := by decide

/-- C10 amended: `Has` and `Get` agree — `Has` returns `(true, nil)` exactly when
`Get` returns a block — provided every offset the index returns for the key points at
a complete well-formed frame in the backing. -/
theorem has_get_agree_on_complete_frames (b : ReadOnly) (key : Cid)
    (hcomplete : ∀ off, b.idxGet key = .ok off →
      ∃ f rest, f.Wf ∧ b.backing.drop off = encodeFrame f ++ rest) :
    (b.has key = .ok true ↔ ∃ blk, b.get key = .ok blk) := by
  cases hidx : b.idxGet key with
  | error e =>
    constructor
    · intro h
      simp only [ReadOnly.has, hidx] at h
      exact Except.noConfusion h
    · rintro ⟨blk, h⟩
      simp only [ReadOnly.get, hidx] at h
      exact Except.noConfusion h
  | ok off =>
    obtain ⟨f, rest, hwf, hdrop⟩ := hcomplete off hidx
    have e0 : b.backing.drop off = putUvarint f.body.length ++ (f.body ++ rest) := by
      rw [hdrop]
      simp [encodeFrame, List.append_assoc]
    have r1 := readUvarint_put e0 hwf.2
    have e1 := drop_offset_append e0
    have e1' : b.backing.drop (off + (putUvarint f.body.length).length) =
        f.cid.bytes ++ (f.data ++ rest) := by
      rw [e1]
      simp [Frame.body, List.append_assoc]
    have rcid : readCid b.backing (off + (putUvarint f.body.length).length) =
        .ok (f.cid, off + (putUvarint f.body.length).length + f.cid.bytes.length) := by
      rw [readCid, e1', parseCid_bytes f.cid _ hwf.1]
    have hhas : b.has key = .ok (f.cid == key) := by
      simp only [ReadOnly.has, hidx, r1, rcid]
    have hread := readNode_encodeFrame f rest hdrop hwf
    have hget : b.get key =
        if f.cid = key then .ok (key, f.data) else .error .notFound := by
      simp only [ReadOnly.get, hidx, ReadOnly.readBlock, hread]
    rw [hhas, hget]
    by_cases hc : f.cid = key
    · simp [hc]
    · simp [hc]

/-- Witness for the amended C10 at the concrete store. -/
theorem has_get_agree_on_complete_frames_witness :
    (stP.has cidA = .ok true ↔ ∃ blk, stP.get cidA = .ok blk) :=
  has_get_agree_on_complete_frames stP cidA (by
    intro off hoff
    have h3 : stP.idxGet cidA = .ok 3 := by decide
    rw [h3] at hoff
    injection hoff with h
    subst h
    exact ⟨frameA, encodeFrame frameB, by decide, by decide⟩)

/-- The fixed 11-byte CARv2 pragma (`carv2.PrefixBytes`): a CARv1-shaped header whose
version field is 2; constant across all CARv2 files. -/
def pragma : List Nat := [10, 161, 103, 118, 101, 114, 115, 105, 111, 110, 2]

/-- Little-endian unsigned 64-bit decoding of 8 bytes at `off`. -/
def readU64LE (bs : List Nat) (off : Nat) : Option Nat :=
  let b := (bs.drop off).take 8
  if b.length = 8 then some (b.foldr (fun x acc => x + 256 * acc) 0) else none

/-- Little-endian unsigned 32-bit decoding of 4 bytes at `off`. -/
def readU32LE (bs : List Nat) (off : Nat) : Option Nat :=
  let b := (bs.drop off).take 4
  if b.length = 4 then some (b.foldr (fun x acc => x + 256 * acc) 0) else none

/-- Little-endian 64-bit encoding. -/
def u64LE (n : Nat) : List Nat :=
  [n % 256, n / 256 % 256, n / 256 ^ 2 % 256, n / 256 ^ 3 % 256,
   n / 256 ^ 4 % 256, n / 256 ^ 5 % 256, n / 256 ^ 6 % 256, n / 256 ^ 7 % 256]

/-- Little-endian 32-bit encoding. -/
def u32LE (n : Nat) : List Nat :=
  [n % 256, n / 256 % 256, n / 256 ^ 2 % 256, n / 256 ^ 3 % 256]

/-- The 40-byte CARv2 header fields. -/
structure Carv2Header where
  dataOffset : Nat
  dataSize : Nat
  indexOffset : Nat
deriving DecidableEq

/-- `Header.HasIndex`: true iff `index_offset ≠ 0`. -/
def Carv2Header.hasIndex (h : Carv2Header) : Bool := h.indexOffset != 0

/-- The parsed CARv2 reader state: header, CARv1 sub-slice, and the bytes from
`index_offset` onward. -/
structure Carv2Reader where
  header : Carv2Header
  carv1 : List Nat
  indexBytes : List Nat
deriving DecidableEq

/-- Modelled from the spec: `carv2.NewReader` (§4.4) — verify the 11-byte pragma
(`NotCarV2` on mismatch), read the 40-byte header (16 reserved characteristics bytes
then data_offset, data_size, index_offset as uint64 LE at absolute offsets 27, 35,
43), and validate `data_offset ≥ 51`, `data_size > 0`, and `index_offset = 0 ∨
index_offset ≥ data_offset + data_size`. Exposes the CARv1 sub-slice
`[data_offset, data_offset + data_size)` and the suffix from `index_offset`. -/
def carv2NewReader (file : List Nat) : Except Err Carv2Reader :=
  if file.take 11 = pragma then
    match readU64LE file 27, readU64LE file 35, readU64LE file 43 with
    | some d, some s, some i =>
      if 51 ≤ d ∧ 0 < s ∧ (i = 0 ∨ d + s ≤ i) then
        .ok ⟨⟨d, s, i⟩, (file.drop d).take s, file.drop i⟩
      else .error .invalidHeader
    | _, _, _ => .error .invalidHeader
  else .error .notCarV2

/-- The multicodec code of the canonical sorted index (`CarIndexSorted`, 0x0400). -/
def carIndexSortedCodec : Nat := 1024

/-- Modelled from the spec: parse `count` records of `digest[w] || uint64 LE offset`
starting at `off`, returning them and the offset past them. -/
def readRecords (bs : List Nat) (w : Nat) : Nat → Nat → Option (List IdxRecord × Nat)
  | off, 0 => some ([], off)
  | off, cnt + 1 =>
    let dg := (bs.drop off).take w
    if dg.length = w then
      match readU64LE bs (off + w) with
      | some o =>
        match readRecords bs w (off + w + 8) cnt with
        | some (rs, offEnd) => some (⟨dg, o⟩ :: rs, offEnd)
        | none => none
      | none => none
    else none

/-- Modelled from the spec: parse `n` width buckets (uint32 LE width, uint64 LE count,
uint64 LE data_len, then the records) starting at `off`. -/
def readBuckets (bs : List Nat) : Nat → Nat → Option (List (Nat × List IdxRecord) × Nat)
  | off, 0 => some ([], off)
  | off, n + 1 =>
    match readU32LE bs off, readU64LE bs (off + 4), readU64LE bs (off + 12) with
    | some w, some cnt, some _ =>
      match readRecords bs w (off + 20) cnt with
      | some (rs, offEnd) =>
        match readBuckets bs offEnd n with
        | some (rest, off2) => some ((w, rs) :: rest, off2)
        | none => none
      | none => none
    | _, _, _ => none

/-- Modelled from the spec: `index.ReadFrom` — read the varint multicodec tag, accept
only `CarIndexSorted` (deprecated and unknown codecs are errors), then parse the
bucket count and the buckets. -/
def indexReadFrom (bs : List Nat) : Except Err SortedIndex :=
  match readUvarint bs 0 with
  | .error e => .error e
  | .ok (codec, p) =>
    if codec = carIndexSortedCodec then
      match readUvarint bs p with
      | .error e => .error e
      | .ok (bc, p2) =>
        match readBuckets bs p2 bc with
        | some (bkts, _) => .ok ⟨bkts⟩
        | none => .error .unexpectedEof
    else .error .unknownCodec

/-- The result of `OpenReadOnly` together with whether any path released (closed)
the mmap-acquired backing. -/
structure OpenOutcome where
  result : Except Err ReadOnly
  backingReleased : Bool
deriving DecidableEq

/-- `OpenReadOnly` from readonly.go lines 44-75. `mmap.Open` is modelled as succeeding
with the file's bytes (the path exists). The Go function declares `var idx index.Index`
and, in the generate branch, binds the generated index with `idx, err :=
index.Generate(...)` — the `:=` introduces a new, shadowed `idx` scoped to that
branch, so the outer `idx` stays nil and is what the returned store carries; the
embedding mirrors the shadowing with `idxShadow`. `index.Attach` (when attachIndex is
set) writes the generated index back into the file, does not touch the returned
store, and is modelled as succeeding. No path calls Close on the mmap reader, so
`backingReleased` is false on every path. -/
def openReadOnly (file : List Nat) (attachIndex : Bool) : OpenOutcome :=
  match carv2NewReader file with
  | .error e => ⟨.error e, false⟩
  | .ok v2r =>
    let idx : Option SortedIndex := none
    if ¬ v2r.header.hasIndex then
      match generate v2r.carv1 with
      | .error e => ⟨.error e, false⟩
      | .ok idxShadow =>
        let _ := (attachIndex, idxShadow)
        ⟨.ok ⟨v2r.carv1, idx⟩, false⟩
    else
      match indexReadFrom v2r.indexBytes with
      | .error e => ⟨.error e, false⟩
      | .ok i => ⟨.ok ⟨v2r.carv1, some i⟩, false⟩

/-- A CARv2 file embedding `carP` with `index_offset = 0` (no embedded index). -/
def c1File : List Nat :=
  pragma ++ List.replicate 16 0 ++ u64LE 51 ++ u64LE carP.bytes.length ++ u64LE 0 ++
    carP.bytes

/-- C1: on a CARv2 whose header has `index_offset = 0`, `OpenReadOnly(path, false)`
generates an index over the embedded CARv1 but — because `idx, err := ...` shadows
the outer `idx` — returns a store whose index is nil, although the generated index
does contain the payload's CID; `Has`/`Get` on that CID hit the nil index (a run-time
panic in Go) instead of succeeding. -/
theorem openReadOnly_drops_generated_index :
    (openReadOnly c1File false).result = .ok ⟨carP.bytes, none⟩ ∧
    generate carP.bytes = .ok (mkSortedOf carP.idxRecords) ∧
    (mkSortedOf carP.idxRecords).get cidA = .ok 3 ∧
    (ReadOnly.mk carP.bytes none).has cidA = .error .nilPanic ∧
    (ReadOnly.mk carP.bytes none).get cidA = .error .nilPanic := by decide

/-- A file with a valid pragma whose CARv2 header fails validation (`data_size = 0`),
i.e. a malformed header encountered after a successful mmap. -/
def c8File : List Nat :=
  pragma ++ List.replicate 16 0 ++ u64LE 51 ++ u64LE 0 ++ u64LE 0

/-- C8: the mmap-acquired backing is never released. `OpenReadOnly` contains no Close
call on any path (and `ReadOnly` has no Close method at all): on the malformed header
`c8File` the construction errors with the backing still held, and on every input and
every path `backingReleased` is false. -/
theorem openReadOnly_never_releases_backing :
    (openReadOnly c8File false).result = .error .invalidHeader ∧
    (openReadOnly c8File false).backingReleased = false ∧
    ∀ (file : List Nat) (attach : Bool),
      (openReadOnly file attach).backingReleased = false := by
  refine ⟨by decide, by decide, ?_⟩
  intro file attach
  unfold openReadOnly
  cases carv2NewReader file with
  | error e => rfl
  | ok v2r =>
    simp only
    by_cases h : v2r.header.hasIndex
    · simp only [h, not_true, if_false]
      cases indexReadFrom v2r.indexBytes <;> rfl
    · simp only [h, not_false_iff, if_true]
      cases generate v2r.carv1 <;> rfl

/-- Events the `AllKeysChan` producer goroutine performs on its channel. The
vocabulary includes `close` — a producer normally closes its channel at end of
stream — but the Go code never does. -/
inductive ChanEvent where
  | send (c : Cid)
  | close
deriving DecidableEq

/-- The producer goroutine of `AllKeysChan`, readonly.go lines 166-189, as the trace
of channel events it performs. Each iteration reads the frame varint and CID
(returning on any error, without closing the channel), seeks past the frame, and runs
`select { case ch <- c: continue; case <-done: return }`. `cancelled i` states that
the context's done channel is closed by the time of the i-th select; `sched i = true`
resolves that select in favour of the send branch when both are ready (Go's select
picks among ready branches, and a closed done channel is always ready). Fuel bounds
the iterations and cannot run out for the caller's choice, since each iteration
consumes at least one payload byte. -/
def allKeysLoop (backing : List Nat) (cancelled sched : Nat → Bool) :
    Nat → Nat → Nat → List ChanEvent
  | _, _, 0 => []
  | off, i, fuel + 1 =>
    match readUvarint backing off with
    | .error _ => []
    | .ok (l, p) =>
      match readCid backing p with
      | .error _ => []
      | .ok (c, _) =>
        if cancelled i && !sched i then []
        else .send c :: allKeysLoop backing cancelled sched (p + l) (i + 1) fuel

/-- `AllKeysChan`, readonly.go lines 154-191: read the CARv1 header (errors returned
synchronously), then run the producer from the first-frame offset. The result is the
trace of channel events the producer performs. -/
def allKeysChan (b : ReadOnly) (cancelled sched : Nat → Bool) :
    Except Err (List ChanEvent) :=
  match carv1HeaderSize b.backing with
  | .error e => .error e
  | .ok offset =>
    .ok (allKeysLoop b.backing cancelled sched offset 0 (b.backing.length + 1))

/-- The trace of a started producer; a synchronous header error starts none. -/
def eventsOf : Except Err (List ChanEvent) → List ChanEvent
  | .ok tr => tr
  | .error _ => []

lemma close_not_mem_allKeysLoop (backing : List Nat) (cancelled sched : Nat → Bool) :
    ∀ fuel off i, ChanEvent.close ∉ allKeysLoop backing cancelled sched off i fuel := by
  intro fuel
  induction fuel with
  | zero => intro off i; simp [allKeysLoop]
  | succ fuel ih =>
    intro off i
    simp only [allKeysLoop]
    split
    · simp
    · split
      · simp
      · split
        · simp
        · simp [List.mem_cons, ih]

/-- C9: the producer never closes the channel — whether the scan reaches end of
payload, hits a read error, or is cancelled, its trace contains no close event, so a
consumer that keeps receiving after the last CID blocks instead of observing
end-of-sequence. -/
theorem allKeysChan_never_closes (b : ReadOnly) (cancelled sched : Nat → Bool) :
    ChanEvent.close ∉ eventsOf (allKeysChan b cancelled sched) := by
  rw [allKeysChan]
  cases carv1HeaderSize b.backing with
  | error e => simp [eventsOf]
  | ok off =>
    simpa [eventsOf] using close_not_mem_allKeysLoop b.backing cancelled sched _ off 0

/-- Reading one well-formed frame at `off`: the varint, the CID just after it, and
the seek target past the frame. -/
lemma frame_read_at {car : List Nat} {off : Nat} (f : Frame) (rest : List Nat)
    (hdrop : car.drop off = encodeFrame f ++ rest) (hwf : f.Wf) :
    readUvarint car off = .ok (f.body.length, off + (putUvarint f.body.length).length) ∧
    readCid car (off + (putUvarint f.body.length).length) =
      .ok (f.cid, off + (putUvarint f.body.length).length + f.cid.bytes.length) ∧
    car.drop (off + (putUvarint f.body.length).length + f.body.length) = rest := by
  have e0 : car.drop off = putUvarint f.body.length ++ (f.body ++ rest) := by
    rw [hdrop]
    simp [encodeFrame, List.append_assoc]
  have r1 := readUvarint_put e0 hwf.2
  have e1 := drop_offset_append e0
  have e1' : car.drop (off + (putUvarint f.body.length).length) =
      f.cid.bytes ++ (f.data ++ rest) := by
    rw [e1]
    simp [Frame.body, List.append_assoc]
  refine ⟨r1, ?_, ?_⟩
  · rw [readCid, e1', parseCid_bytes f.cid _ hwf.1]
  · exact drop_offset_append e1

lemma allKeysLoop_frames (cancelled sched : Nat → Bool) :
    ∀ (fs : List Frame) (car : List Nat) (off i fuel : Nat),
    car.drop off = encodeFrames fs → (∀ f ∈ fs, f.Wf) → fs.length < fuel →
    ∃ k, k ≤ fs.length ∧
      allKeysLoop car cancelled sched off i fuel =
        (fs.map (fun f => ChanEvent.send f.cid)).take k ∧
      ((∀ j, cancelled j = false) → k = fs.length) := by
  intro fs
  induction fs with
  | nil =>
    intro car off i fuel hdrop hwf hfuel
    match fuel with
    | fuel + 1 =>
      refine ⟨0, le_refl _, ?_, fun _ => rfl⟩
      have he : car.drop off = [] := by simpa [encodeFrames] using hdrop
      simp [allKeysLoop, readUvarint_eof he]
  | cons f fs ih =>
    intro car off i fuel hdrop hwf hfuel
    match fuel with
    | fuel + 1 =>
      rw [encodeFrames_cons] at hdrop
      have hfwf := hwf f (List.mem_cons_self f fs)
      obtain ⟨r1, rcid, e2⟩ := frame_read_at f (encodeFrames fs) hdrop hfwf
      by_cases hc : (cancelled i && !sched i) = true
      · refine ⟨0, Nat.zero_le _, ?_, ?_⟩
        · simp [allKeysLoop, r1, rcid, hc]
        · intro hall
          rw [hall i] at hc
          simp at hc
      · obtain ⟨k, hk, hek, hkall⟩ := ih car
          (off + (putUvarint f.body.length).length + f.body.length) (i + 1) fuel e2
          (fun g hg => hwf g (List.mem_cons_of_mem f hg)) (by simpa using hfuel)
        refine ⟨k + 1, by simpa using hk, ?_, fun hall => by rw [hkall hall]; simp⟩
        simp only [allKeysLoop, r1, rcid, hc, Bool.false_eq_true, if_false, hek,
          List.map_cons, List.take_succ_cons]

/-- C6 amended: every trace the producer emits is an initial segment of the payload's
frame CIDs in on-disk order; once the done branch of the select is taken nothing more
is emitted; and with no cancellation the full CID sequence is emitted. After
cancellation, however, each further emission only requires the select to pick the
ready consumer over the closed done channel, which Go permits. -/
theorem allKeysChan_emits_in_order (p : CarV1) (b : ReadOnly)
    (cancelled sched : Nat → Bool) (hb : b.backing = p.bytes) (hwf : p.Wf) :
    ∃ tr k, allKeysChan b cancelled sched = .ok tr ∧ k ≤ p.frames.length ∧
      tr = (p.frames.map (fun f => ChanEvent.send f.cid)).take k ∧
      ((∀ j, cancelled j = false) →
        tr = p.frames.map (fun f => ChanEvent.send f.cid)) := by
  obtain ⟨hv, hh, hwfs, hnd⟩ := hwf
  have hhdr : carv1HeaderSize p.bytes = .ok (encodeHeader p.header).length := by
    rw [CarV1.bytes]
    exact carv1HeaderSize_encode p.header _ hv hh
  have hdrop : p.bytes.drop (encodeHeader p.header).length = encodeFrames p.frames := by
    rw [CarV1.bytes]
    exact List.drop_left _ _
  have hfuel : p.frames.length < p.bytes.length + 1 := by
    have h1 := length_le_encodeFrames p.frames
    have h2 : p.bytes.length =
        (encodeHeader p.header).length + (encodeFrames p.frames).length := by
      simp [CarV1.bytes]
    omega
  obtain ⟨k, hk, hek, hkall⟩ := allKeysLoop_frames cancelled sched p.frames p.bytes
    (encodeHeader p.header).length 0 (p.bytes.length + 1) hdrop hwfs hfuel
  refine ⟨(p.frames.map (fun f => ChanEvent.send f.cid)).take k, k, ?_, hk, rfl, ?_⟩
  · simp only [allKeysChan, hb, hhdr, hek]
  · intro hall
    rw [hkall hall]
    rw [← List.length_map p.frames (fun f => ChanEvent.send f.cid), List.take_length]

/-- C6 counterexample: with the context cancelled from the very start
(`cancelled ≡ true`) but every select resolving in favour of the ready consumer
(`sched ≡ true`, an execution Go's select permits), the producer emits both CIDs of
the two-block payload — emissions continue past the next frame boundary after
cancellation. -/
theorem allKeysChan_emits_past_cancellation :
    allKeysChan stP (fun _ => true) (fun _ => true) =
      .ok [ChanEvent.send cidA, ChanEvent.send cidB] := by decide

/-- Witness for the amended C6 at the concrete store with no cancellation. -/
theorem allKeysChan_emits_in_order_witness :
    ∃ tr k, allKeysChan stP (fun _ => false) (fun _ => false) = .ok tr ∧
      k ≤ carP.frames.length ∧
      tr = (carP.frames.map (fun f => ChanEvent.send f.cid)).take k ∧
      ((∀ j, (fun _ : Nat => false) j = false) →
        tr = carP.frames.map (fun f => ChanEvent.send f.cid)) :=
  allKeysChan_emits_in_order carP stP (fun _ => false) (fun _ => false) rfl (by decide)

/-- `bulkPaddingBytesSize`, writer.go line 13. -/
def bulkPaddingBytesSize : Nat := 1024

/-- `padding.WriteTo` from writer.go lines 35-54, as the byte sequence written: for
`p > 1024`, `p / 1024` chunks of the shared 1 KiB zero buffer followed by `p % 1024`
zero bytes; otherwise `p` zero bytes. -/
def paddingWriteTo (p : Nat) : List Nat :=
  if bulkPaddingBytesSize < p then
    (List.replicate (p / bulkPaddingBytesSize)
      (List.replicate bulkPaddingBytesSize 0)).flatten ++
      List.replicate (p % bulkPaddingBytesSize) 0
  else List.replicate p 0

lemma paddingWriteTo_eq (p : Nat) : paddingWriteTo p = List.replicate p 0 := by
  rw [paddingWriteTo]
  by_cases h : bulkPaddingBytesSize < p
  · rw [if_pos h]
    have hj : ∀ n, (List.replicate n (List.replicate bulkPaddingBytesSize (0:Nat))).flatten =
        List.replicate (n * bulkPaddingBytesSize) 0 := by
      intro n
      induction n with
      | zero => simp
      | succ n ih =>
        rw [List.replicate_succ, List.flatten_cons, ih, ← List.replicate_add]
        congr 1
        ring
    rw [hj, ← List.replicate_add]
    congr 1
    simp only [bulkPaddingBytesSize]
    omega
  · rw [if_neg h]

/-- Modelled from the spec: `NewHeader(dataSize).WithCarV1Padding(cp).WithIndexPadding(ip)`
per §4.6: `data_offset = 11 + 40 + cp`, `data_size` as given, `index_offset =
data_offset + data_size + ip`. -/
def newHeader (dataSize cp ip : Nat) : Carv2Header :=
  ⟨11 + 40 + cp, dataSize, 11 + 40 + cp + dataSize + ip⟩

/-- Modelled from the spec: the 40-byte serialization of a CARv2 header — 16 zero
characteristics bytes then the three uint64 LE fields. -/
def carv2HeaderBytes (h : Carv2Header) : List Nat :=
  List.replicate 16 0 ++ u64LE h.dataOffset ++ u64LE h.dataSize ++ u64LE h.indexOffset

/-- Modelled from the spec: the index marshaller (`index.WriteTo`) per the §4.3
layout: varint multicodec, varint bucket count, then per bucket uint32 LE width,
uint64 LE count, uint64 LE data_len = count * (width + 8), and the records
`digest || uint64 LE offset`. -/
def marshalIndex (si : SortedIndex) : List Nat :=
  putUvarint carIndexSortedCodec ++ putUvarint si.buckets.length ++
    (si.buckets.map (fun b =>
      u32LE b.1 ++ u64LE b.2.length ++ u64LE (b.2.length * (b.1 + 8)) ++
        (b.2.map (fun r => r.digest ++ u64LE r.offset)).flatten)).flatten

/-- `Writer.WriteTo` from writer.go lines 72-116, for a DAG walk that succeeded and
produced the buffered CARv1 bytes (`carv1.WriteCarWithWalker` is an external
collaborator, represented by its output). In order: the 11-byte pragma
(`PrefixBytes`), the 40-byte header, `cp` padding bytes, the CARv1 bytes, `ip`
padding bytes, then the index generated over the CARv1 bytes and marshalled
(`writeIndex`, writer.go lines 125-137, whose `carbs.GenerateIndex` is the §4.3
generation modelled by `generate` and whose `Marshal` is `marshalIndex`). On an
index-generation error Go returns the error after the earlier writes; the model
returns the error alone. -/
def writerWriteTo (cp ip : Nat) (carv1Bytes : List Nat) : Except Err (List Nat) :=
  match generate carv1Bytes with
  | .error e => .error e
  | .ok si =>
    .ok (pragma ++ carv2HeaderBytes (newHeader carv1Bytes.length cp ip) ++
      paddingWriteTo cp ++ carv1Bytes ++ paddingWriteTo ip ++ marshalIndex si)

/-- C7: `Writer.WriteTo` emits, in order: the 11-byte pragma, the 40-byte CARv2
header with `data_offset = 11 + 40 + cp`, `data_size = |carv1|` and `index_offset =
data_offset + data_size + ip`, then `cp` zero bytes, the CARv1 bytes, `ip` zero
bytes, and the marshalled sorted index over the CARv1 bytes. -/
theorem writer_writeTo_layout (p : CarV1) (cp ip : Nat) (hwf : p.Wf) :
    writerWriteTo cp ip p.bytes =
      .ok (pragma ++
        (List.replicate 16 0 ++ u64LE (11 + 40 + cp) ++ u64LE p.bytes.length ++
          u64LE (11 + 40 + cp + p.bytes.length + ip)) ++
        List.replicate cp 0 ++ p.bytes ++ List.replicate ip 0 ++
        marshalIndex (mkSortedOf p.idxRecords)) := by
  simp only [writerWriteTo, generate_bytes p hwf, paddingWriteTo_eq, carv2HeaderBytes,
    newHeader]

/-- Witness for C7 at the concrete payload, with a CARv1 padding large enough to
exercise the bulk 1 KiB chunking and a small index padding. -/
theorem writer_writeTo_layout_witness :
    writerWriteTo 1500 3 carP.bytes =
      .ok (pragma ++
        (List.replicate 16 0 ++ u64LE (11 + 40 + 1500) ++ u64LE carP.bytes.length ++
          u64LE (11 + 40 + 1500 + carP.bytes.length + 3)) ++
        List.replicate 1500 0 ++ carP.bytes ++ List.replicate 3 0 ++
        marshalIndex (mkSortedOf carP.idxRecords)) :=
  writer_writeTo_layout carP 1500 3 (by decide)

end GoCar
